import Mathlib

/-!
Shallow embedding of the Braille autocorrect & suggestion engine.

Python floats are modelled as exact rationals (`ℚ`): every weight in the
program (1.0, 2.0, 1.5, 0.5) and every sum of such weights is a small
multiple of 1/2, exactly representable in IEEE doubles, so float
arithmetic and comparisons in the source coincide with `ℚ` arithmetic.
The sentinel `float('inf')` returned by `hamming_distance_patterns` is
modelled as `⊤ : WithTop ℚ`.

A Braille pattern (a Python tuple of dot numbers) is a `List ℕ`; tuple
equality is list equality, and `set(pattern)` is `List.toFinset`.
-/

namespace BrailleAutocorrect

/-- A Braille pattern: the Python tuple of dot integers (order and
multiplicity significant for equality, as for Python tuples). -/
abbrev BraillePattern := List ℕ

/-- The `ERROR_WEIGHTS` module constant of `distanceCalculator.py`. -/
structure ErrorWeights where
  missing_dot : ℚ
  extra_dot : ℚ
  deletion : ℚ
  insertion : ℚ
  substitution : ℚ

/-- Source: `ERROR_WEIGHTS = {'missing_dot': 1.0, 'extra_dot': 1.0, 'deletion': 2.0,
'insertion': 2.0, 'substitution': 1.5}`. -/
def ERROR_WEIGHTS : ErrorWeights :=
  { missing_dot := 1, extra_dot := 1, deletion := 2, insertion := 2, substitution := 3/2 }

/-- Model of `DistanceCalculator.pattern_distance`: missing dots (in `pattern2`'s set
but not `pattern1`'s) weighted by `missing_dot`, plus extra dots (in
`pattern1`'s set but not `pattern2`'s) weighted by `extra_dot`. -/
def pattern_distance (pattern1 pattern2 : BraillePattern) : ℚ :=
  ((pattern2.toFinset \ pattern1.toFinset).card : ℚ) * ERROR_WEIGHTS.missing_dot +
    ((pattern1.toFinset \ pattern2.toFinset).card : ℚ) * ERROR_WEIGHTS.extra_dot

/-- The accumulation loop of `DistanceCalculator.hamming_distance_patterns`:
`for p1, p2 in zip(patterns1, patterns2): if p1 != p2: distance += pattern_distance(p1, p2)`. -/
def hamming_sum : List BraillePattern → List BraillePattern → ℚ
  | p1 :: t1, p2 :: t2 => (if p1 = p2 then 0 else pattern_distance p1 p2) + hamming_sum t1 t2
  | _, _ => 0

/-- Model of `DistanceCalculator.hamming_distance_patterns`: returns `float('inf')`
(modelled `⊤`) when the lengths differ, else the summed pattern distances
over aligned differing positions. -/
def hamming_distance_patterns (patterns1 patterns2 : List BraillePattern) : WithTop ℚ :=
  if patterns1.length ≠ patterns2.length then ⊤
  else ((hamming_sum patterns1 patterns2 : ℚ) : WithTop ℚ)

/-- Model of `DistanceCalculator.levenshtein_distance_patterns`: the weighted
edit-distance recurrence that the source's DP table implements.
Base row and column are `i * deletion` / `j * insertion`; an exact match
costs nothing; otherwise the minimum of deletion, insertion and
substitution, where the substitution cost is `pattern_distance` with a
fallback to the fixed `substitution` weight when that raw cost is 0. -/
def levenshtein_distance_patterns : List BraillePattern → List BraillePattern → ℚ
  | [], patterns2 => (patterns2.length : ℚ) * ERROR_WEIGHTS.insertion
  | patterns1, [] => (patterns1.length : ℚ) * ERROR_WEIGHTS.deletion
  | p1 :: t1, p2 :: t2 =>
    if p1 = p2 then levenshtein_distance_patterns t1 t2
    else
      let substitute_cost := pattern_distance p1 p2
      let substitute_cost := if substitute_cost = 0 then ERROR_WEIGHTS.substitution else substitute_cost
      min (min (levenshtein_distance_patterns t1 (p2 :: t2) + ERROR_WEIGHTS.deletion)
               (levenshtein_distance_patterns (p1 :: t1) t2 + ERROR_WEIGHTS.insertion))
          (levenshtein_distance_patterns t1 t2 + substitute_cost)
  termination_by patterns1 patterns2 => patterns1.length + patterns2.length
  decreasing_by all_goals simp_arith

/-- Model of `DistanceCalculator.word_distance`: Hamming distance for equal lengths,
otherwise Levenshtein distance plus a length penalty
`(length_diff - 2) * 0.5` when the length difference exceeds 2. -/
def word_distance (word1_patterns word2_patterns : List BraillePattern) : WithTop ℚ :=
  if word1_patterns.length = word2_patterns.length then
    hamming_distance_patterns word1_patterns word2_patterns
  else
    let base_distance := levenshtein_distance_patterns word1_patterns word2_patterns
    let length_diff := ((word1_patterns.length : ℤ) - (word2_patterns.length : ℤ)).natAbs
    if 2 < length_diff then
      ((base_distance + ((length_diff : ℚ) - 2) * (1/2) : ℚ) : WithTop ℚ)
    else ((base_distance : ℚ) : WithTop ℚ)

/-- Model of `DistanceCalculator.batch_distances`: one `word_distance` per dictionary
entry, in order. -/
def batch_distances (input_patterns : List BraillePattern)
    (dictionary_patterns : List (List BraillePattern)) : List (WithTop ℚ) :=
  dictionary_patterns.map (fun dict_patterns => word_distance input_patterns dict_patterns)


/-- Python's `str.lower()` on ASCII content: lower-case each character. -/
def py_lower (s : String) : String := ⟨s.data.map Char.toLower⟩

/-- Python's `str.strip()` on ASCII content: drop leading and trailing
whitespace characters. -/
def py_strip (s : String) : String :=
  ⟨((s.data.dropWhile Char.isWhitespace).reverse.dropWhile Char.isWhitespace).reverse⟩

/-- Model of `BrailleConverter.braille_to_char`: the Braille-pattern-to-character
dictionary, as the association list written in the source. -/
def braille_to_char : List (BraillePattern × Char) :=
  [([1], 'a'), ([1, 2], 'b'), ([1, 4], 'c'), ([1, 4, 5], 'd'), ([1, 5], 'e'),
   ([1, 2, 4], 'f'), ([1, 2, 4, 5], 'g'), ([1, 2, 5], 'h'), ([2, 4], 'i'), ([2, 4, 5], 'j'),
   ([1, 3], 'k'), ([1, 2, 3], 'l'), ([1, 3, 4], 'm'), ([1, 3, 4, 5], 'n'), ([1, 3, 5], 'o'),
   ([1, 2, 3, 4], 'p'), ([1, 2, 3, 4, 5], 'q'), ([1, 2, 3, 5], 'r'), ([2, 3, 4], 's'),
   ([2, 3, 4, 5], 't'), ([1, 3, 6], 'u'), ([1, 2, 3, 6], 'v'), ([2, 4, 5, 6], 'w'),
   ([1, 3, 4, 6], 'x'), ([1, 3, 4, 5, 6], 'y'), ([1, 3, 5, 6], 'z'), ([], ' ')]

/-- Model of `BrailleConverter.char_to_braille`: the reverse mapping
`{v: k for k, v in braille_to_char.items()}` (no duplicate characters, so
dict inversion is association-list swapping). -/
def char_to_braille : List (Char × BraillePattern) :=
  braille_to_char.map (fun kv => (kv.2, kv.1))

/-- Model of `BrailleConverter.text_to_braille_patterns`: each character of the
lower-cased text maps through `char_to_braille.get(char, ())`. -/
def text_to_braille_patterns (text : String) : List BraillePattern :=
  (py_lower text).data.map (fun c => ((char_to_braille.lookup c).getD []))


/-- The mutable state of `DictionaryManager`: the word set, the
`defaultdict(int)` frequency map (modelled as a partial map whose reads
default to 0), the nested `defaultdict` of user corrections, and the
pattern cache `_word_patterns_cache`. -/
structure DictionaryManager where
  dictionary : Finset String
  word_frequency : String → Option ℤ
  user_corrections : String → String → ℤ
  word_patterns_cache : String → Option (List BraillePattern)

/-- A fresh `DictionaryManager()`: empty word set, empty maps. -/
def initDM : DictionaryManager :=
  { dictionary := ∅
    word_frequency := fun _ => none
    user_corrections := fun _ _ => 0
    word_patterns_cache := fun _ => none }

/-- Model of `DictionaryManager._is_valid_word`: nonempty, at most 50 characters,
and every character of the lower-cased word is a supported character
(a key of `char_to_braille`). -/
def is_valid_word (word : String) : Bool :=
  if word = "" ∨ word.length > 50 then false
  else (py_lower word).data.all (fun c => (char_to_braille.lookup c).isSome)

/-- The frequency value assigned by one iteration of
`DictionaryManager.add_words`: `frequencies[i]` when the `frequencies`
list is truthy (present and nonempty) and `i` is in range, else
`max(1, word_frequency[word])` (a `defaultdict` read, defaulting to 0). -/
def add_words_freq (frequencies : Option (List ℤ)) (i : ℕ) (current : Option ℤ) : ℤ :=
  match frequencies with
  | some fs => if fs ≠ [] ∧ i < fs.length then fs.getD i 0 else max 1 (current.getD 0)
  | none => max 1 (current.getD 0)

/-- One iteration of the `for i, word in enumerate(words)` loop of
`DictionaryManager.add_words`: lower-case and strip the word; if nonempty
and valid, insert it, set its frequency, and cache its patterns. -/
def add_words_step (frequencies : Option (List ℤ)) (i : ℕ)
    (st : DictionaryManager) (w : String) : DictionaryManager :=
  let word := py_strip (py_lower w)
  if word ≠ "" ∧ is_valid_word word then
    { dictionary := insert word st.dictionary
      word_frequency := fun x =>
        if x = word then some (add_words_freq frequencies i (st.word_frequency word))
        else st.word_frequency x
      user_corrections := st.user_corrections
      word_patterns_cache := fun x =>
        if x = word then some (text_to_braille_patterns word) else st.word_patterns_cache x }
  else st

/-- The loop of `DictionaryManager.add_words`, carrying the enumerate index. -/
def add_words_aux (frequencies : Option (List ℤ)) :
    ℕ → DictionaryManager → List String → DictionaryManager
  | _, st, [] => st
  | i, st, w :: ws => add_words_aux frequencies (i + 1) (add_words_step frequencies i st w) ws

/-- Model of `DictionaryManager.add_words(words, frequencies=None)`. -/
def add_words (st : DictionaryManager) (words : List String)
    (frequencies : Option (List ℤ)) : DictionaryManager :=
  add_words_aux frequencies 0 st words

/-- Model of `DictionaryManager.remove_word`: returns whether the word was removed,
with the updated state; on removal the word, its frequency entry and its
cache entry are all deleted. -/
def remove_word (st : DictionaryManager) (w : String) : Bool × DictionaryManager :=
  let word := py_strip (py_lower w)
  if word ∈ st.dictionary then
    (true,
      { dictionary := st.dictionary.erase word
        word_frequency := fun x => if x = word then none else st.word_frequency x
        user_corrections := st.user_corrections
        word_patterns_cache := fun x => if x = word then none else st.word_patterns_cache x })
  else (false, st)

/-- Model of `DictionaryManager.get_word_patterns`: lower-case the word; if absent
from the cache, compute and insert `text_to_braille_patterns(word)`;
return the cached entry with the (possibly updated) state. -/
def get_word_patterns (st : DictionaryManager) (w : String) :
    List BraillePattern × DictionaryManager :=
  let word := py_lower w
  match st.word_patterns_cache word with
  | some ps => (ps, st)
  | none =>
    let ps := text_to_braille_patterns word
    (ps, { st with word_patterns_cache := fun x => if x = word then some ps else st.word_patterns_cache x })

/-- Model of `DictionaryManager.add_user_correction`: lower-case and strip the
chosen word; when it is in the dictionary, increment its frequency (a
`defaultdict` read defaulting to 0, plus 1) and the
`(qwerty_input, chosen_word)` correction count; otherwise do nothing. -/
def add_user_correction (st : DictionaryManager) (qwerty_input chosen_word : String) :
    DictionaryManager :=
  let chosen := py_strip (py_lower chosen_word)
  if chosen ∈ st.dictionary then
    { st with
      word_frequency := fun x =>
        if x = chosen then some ((st.word_frequency chosen).getD 0 + 1)
        else st.word_frequency x
      user_corrections := fun k x =>
        if k = qwerty_input ∧ x = chosen then st.user_corrections qwerty_input chosen + 1
        else st.user_corrections k x }
  else st

/-- The Python exception escaping the suggestion loop: `min([])` raises
`ValueError` (there is no suggestion-specific error type in the source). -/
inductive SuggestFailure where
  | valueErrorEmptyMin
  deriving DecidableEq

/-- The pattern-sequence value `get_word_patterns` returns for a word:
the cached entry for the lower-cased word if present, else its freshly
computed encoding. -/
def patterns_value (st : DictionaryManager) (w : String) : List BraillePattern :=
  (st.word_patterns_cache (py_lower w)).getD (text_to_braille_patterns (py_lower w))

/-- The list comprehension
`[dictionary.get_word_patterns(word) for word in candidates]`, threading
the mutated manager state left to right. -/
def map_get_word_patterns (st : DictionaryManager) :
    List String → List (List BraillePattern) × DictionaryManager
  | [] => ([], st)
  | w :: ws =>
    let r := get_word_patterns st w
    let rest := map_get_word_patterns r.2 ws
    (r.1 :: rest.1, rest.2)

/-- The suggestion core shared by `app.suggest`, `app.index` and the
`braille_suggest` main loop (their lines after input validation):
`candidates` is the enumeration `list(dictionary.dictionary)` of the word
set (Python set iteration order — an arbitrary enumeration, supplied here
as a parameter), patterns are fetched per candidate, distances computed by
`batch_distances`, then `min_distance = min(distances)` (raising
`ValueError` on an empty list) and all candidates tied at the minimum are
returned in candidate order. -/
def suggest (st : DictionaryManager) (candidates : List String)
    (input_patterns : List BraillePattern) :
    Except SuggestFailure (List String × WithTop ℚ) :=
  let cps := map_get_word_patterns st candidates
  let distances := batch_distances input_patterns cps.1
  match distances.min? with
  | none => .error .valueErrorEmptyMin
  | some m =>
    .ok (((candidates.zip distances).filter (fun p => decide (p.2 = m))).map Prod.fst, m)

/-- The four mutating `DictionaryManager` operations named in the spec's
lifecycle invariants. -/
inductive DMOp where
  | addW (words : List String) (frequencies : Option (List ℤ))
  | removeW (w : String)
  | getPat (w : String)
  | addCorr (k w : String)

/-- Apply one operation to the manager state (dropping returned values). -/
def apply_op (st : DictionaryManager) : DMOp → DictionaryManager
  | .addW ws fs => add_words st ws fs
  | .removeW w => (remove_word st w).2
  | .getPat w => (get_word_patterns st w).2
  | .addCorr k w => add_user_correction st k w

/-- Run a sequence of operations from a fresh manager. -/
def run_ops (ops : List DMOp) : DictionaryManager := ops.foldl apply_op initDM

/-- Every cached entry equals the deterministic encoding of its key. -/
def CacheSound (st : DictionaryManager) : Prop :=
  ∀ w ps, st.word_patterns_cache w = some ps → ps = text_to_braille_patterns w

/-- Every dictionary word has a cache entry. -/
def CacheCovers (st : DictionaryManager) : Prop :=
  ∀ w ∈ st.dictionary, (st.word_patterns_cache w).isSome

/-- A concrete manager whose lexicon is the two-word set {"b", "c"}, with
empty caches: "b" encodes to the pattern (1, 2) and "c" to (1, 4), both at
Hamming distance 1 from the single-chord input (1,). -/
def sample_manager : DictionaryManager :=
  { dictionary := {"b", "c"}
    word_frequency := fun _ => none
    user_corrections := fun _ _ => 0
    word_patterns_cache := fun _ => none }


lemma pattern_distance_comm (a b : BraillePattern) :
    pattern_distance a b = pattern_distance b a := by
  simp only [pattern_distance, ERROR_WEIGHTS]
  ring

lemma hamming_sum_comm (s : List BraillePattern) :
    ∀ t, hamming_sum s t = hamming_sum t s := by
  induction s with
  | nil => intro t; cases t <;> simp [hamming_sum]
  | cons p1 t1 ih =>
    intro t
    cases t with
    | nil => simp [hamming_sum]
    | cons p2 t2 =>
      by_cases hp : p1 = p2
      · subst hp; simp [hamming_sum, ih]
      · simp only [hamming_sum, if_neg hp, if_neg (Ne.symm hp), ih t2,
          pattern_distance_comm]

lemma hamming_sum_eq_zip_sum (s : List BraillePattern) :
    ∀ t, hamming_sum s t =
      ((s.zip t).map (fun p => if p.1 = p.2 then 0 else pattern_distance p.1 p.2)).sum := by
  induction s with
  | nil => intro t; cases t <;> simp [hamming_sum]
  | cons p1 t1 ih =>
    intro t
    cases t with
    | nil => simp [hamming_sum]
    | cons p2 t2 => simp [hamming_sum, ih t2]

lemma lev_nil_right (s : List BraillePattern) :
    levenshtein_distance_patterns s [] = (s.length : ℚ) * ERROR_WEIGHTS.deletion := by
  cases s with
  | nil => simp [levenshtein_distance_patterns]
  | cons p t => simp [levenshtein_distance_patterns]

lemma lev_comm (s t : List BraillePattern) :
    levenshtein_distance_patterns s t = levenshtein_distance_patterns t s := by
  generalize hn : s.length + t.length = n
  induction n using Nat.strong_induction_on generalizing s t with
  | _ n IH =>
    match s, t with
    | [], t =>
      rw [lev_nil_right]
      cases t <;> simp [levenshtein_distance_patterns, ERROR_WEIGHTS]
    | p1 :: t1, [] =>
      rw [lev_nil_right]
      simp [levenshtein_distance_patterns, ERROR_WEIGHTS]
    | p1 :: t1, p2 :: t2 =>
      have h1 : levenshtein_distance_patterns t1 (p2 :: t2) =
          levenshtein_distance_patterns (p2 :: t2) t1 := by
        apply IH (t1.length + (p2 :: t2).length) _ t1 (p2 :: t2) rfl
        subst hn; simp only [List.length_cons]; omega
      have h2 : levenshtein_distance_patterns (p1 :: t1) t2 =
          levenshtein_distance_patterns t2 (p1 :: t1) := by
        apply IH ((p1 :: t1).length + t2.length) _ (p1 :: t1) t2 rfl
        subst hn; simp only [List.length_cons]; omega
      have h3 : levenshtein_distance_patterns t1 t2 =
          levenshtein_distance_patterns t2 t1 := by
        apply IH (t1.length + t2.length) _ t1 t2 rfl
        subst hn; simp only [List.length_cons]; omega
      by_cases hp : p1 = p2
      · subst hp
        simp only [levenshtein_distance_patterns, if_pos rfl]
        exact h3
      · simp only [levenshtein_distance_patterns, if_neg hp, if_neg (Ne.symm hp)]
        rw [pattern_distance_comm p2 p1, ← h1, ← h2, ← h3]
        simp only [ERROR_WEIGHTS]
        rw [min_comm (levenshtein_distance_patterns t1 (p2 :: t2) + 2)
          (levenshtein_distance_patterns (p1 :: t1) t2 + 2)]

lemma hamming_comm (s t : List BraillePattern) :
    hamming_distance_patterns s t = hamming_distance_patterns t s := by
  unfold hamming_distance_patterns
  by_cases h : s.length = t.length
  · rw [if_neg (not_not_intro h), if_neg (not_not_intro h.symm), hamming_sum_comm]
  · rw [if_pos h, if_pos (fun he => h he.symm)]

/-- Claim C3, counterexample: called on sequences of unequal length (here a
one-element and an empty sequence), `hamming_distance_patterns` does not
fail with a `LengthMismatch` error; it returns the magic numeric sentinel
`float('inf')` (modelled `⊤`), exactly what the claim rules out. -/
theorem hamming_unequal_length_sentinel_cex :
    hamming_distance_patterns [[1]] [] = ⊤ := rfl

/-- Claim C3, amended: for unequal-length pattern sequences
`hamming_distance_patterns` returns the numeric sentinel `float('inf')`
(modelled `⊤`) rather than raising an error; for equal-length sequences it
returns the sum over aligned positions of the `pattern_distance` cost where
the elements differ (0 where they are equal). -/
theorem hamming_distance_patterns_spec (patterns1 patterns2 : List BraillePattern) :
    (patterns1.length ≠ patterns2.length →
      hamming_distance_patterns patterns1 patterns2 = ⊤)
    ∧ (patterns1.length = patterns2.length →
      hamming_distance_patterns patterns1 patterns2 =
        ((((patterns1.zip patterns2).map
            (fun p => if p.1 = p.2 then 0 else pattern_distance p.1 p.2)).sum : ℚ) : WithTop ℚ)) := by
  refine ⟨fun h => ?_, fun h => ?_⟩
  · unfold hamming_distance_patterns
    rw [if_pos h]
  · unfold hamming_distance_patterns
    rw [if_neg (not_not_intro h), hamming_sum_eq_zip_sum]

/-- Witness for C3: both branches at concrete inputs — `[[1]]` vs `[]`
(unequal lengths, sentinel) and `[[1]]` vs `[[2]]` (equal lengths, summed
pattern distances). -/
theorem hamming_distance_patterns_spec_witness :
    (([[1]] : List BraillePattern).length ≠ ([] : List BraillePattern).length
      ∧ hamming_distance_patterns [[1]] [] = ⊤)
    ∧ (([[1]] : List BraillePattern).length = ([[2]] : List BraillePattern).length
      ∧ hamming_distance_patterns [[1]] [[2]] =
        (((([[1]] : List BraillePattern).zip [[2]]).map
            (fun p => if p.1 = p.2 then 0 else pattern_distance p.1 p.2)).sum : ℚ)) :=
  ⟨⟨by decide, (hamming_distance_patterns_spec [[1]] []).1 (by decide)⟩,
   ⟨rfl, (hamming_distance_patterns_spec [[1]] [[2]]).2 rfl⟩⟩

/-- Claim C4: for any candidate pattern sequence of length 3 matched
against the empty input sequence, `word_distance` is exactly 6.5 — the
edit-distance base case `3 × insertion_weight(2.0) = 6.0` plus the length
penalty `(3 − 2) × 0.5 = 0.5` applied because the length difference
exceeds 2. -/
theorem word_distance_empty_input_length_three (w : List BraillePattern)
    (h : w.length = 3) :
    word_distance [] w = ((13/2 : ℚ) : WithTop ℚ) := by
  have hne : ¬ (([] : List BraillePattern).length = w.length) := by simp [h]
  have hlev : levenshtein_distance_patterns [] w = 6 := by
    have h1 : levenshtein_distance_patterns [] w = (w.length : ℚ) * ERROR_WEIGHTS.insertion := by
      simp [levenshtein_distance_patterns]
    rw [h1, h]; norm_num [ERROR_WEIGHTS]
  have hdiff : ((([] : List BraillePattern).length : ℤ) - (w.length : ℤ)).natAbs = 3 := by
    simp [h]
  unfold word_distance
  rw [if_neg hne]
  simp only [hdiff, hlev]
  norm_num

/-- Witness for C4: the concrete length-3 candidate `[(), (), ()]` against
the empty input evaluates to 13/2 = 6.5. -/
theorem word_distance_empty_input_length_three_witness :
    ([[], [], []] : List BraillePattern).length = 3
      ∧ word_distance [] [[], [], []] = ((13/2 : ℚ) : WithTop ℚ) :=
  ⟨rfl, word_distance_empty_input_length_three [[], [], []] rfl⟩

/-- Claim C5: in the edit-distance transition for unequal aligned elements,
the substitution cost is the raw `pattern_distance` unless that raw cost is
exactly 0, in which case the fixed `substitution` weight (1.5) is used
instead. -/
theorem levenshtein_substitution_fallback (p1 p2 : BraillePattern)
    (t1 t2 : List BraillePattern) (hne : p1 ≠ p2) :
    ERROR_WEIGHTS.substitution = 3/2
    ∧ (pattern_distance p1 p2 = 0 →
      levenshtein_distance_patterns (p1 :: t1) (p2 :: t2) =
        min (min (levenshtein_distance_patterns t1 (p2 :: t2) + ERROR_WEIGHTS.deletion)
                 (levenshtein_distance_patterns (p1 :: t1) t2 + ERROR_WEIGHTS.insertion))
            (levenshtein_distance_patterns t1 t2 + ERROR_WEIGHTS.substitution))
    ∧ (pattern_distance p1 p2 ≠ 0 →
      levenshtein_distance_patterns (p1 :: t1) (p2 :: t2) =
        min (min (levenshtein_distance_patterns t1 (p2 :: t2) + ERROR_WEIGHTS.deletion)
                 (levenshtein_distance_patterns (p1 :: t1) t2 + ERROR_WEIGHTS.insertion))
            (levenshtein_distance_patterns t1 t2 + pattern_distance p1 p2)) := by
  refine ⟨rfl, fun h0 => ?_, fun h0 => ?_⟩
  · simp only [levenshtein_distance_patterns, if_neg hne, h0, if_pos rfl, if_true]
  · simp only [levenshtein_distance_patterns, if_neg hne, if_neg h0]

/-- Witness for C5: both branches. The tuples `(1, 1)` and `(1,)` are
unequal but set-equal, so their raw cost is 0 and the fallback weight is
used; `(1,)` and `(2,)` have raw cost 2 which is used as is. -/
theorem levenshtein_substitution_fallback_witness :
    (([1, 1] : BraillePattern) ≠ [1]
      ∧ pattern_distance [1, 1] [1] = 0
      ∧ levenshtein_distance_patterns [[1, 1]] [[1]] =
          min (min (levenshtein_distance_patterns [] [[1]] + ERROR_WEIGHTS.deletion)
                   (levenshtein_distance_patterns [[1, 1]] [] + ERROR_WEIGHTS.insertion))
              (levenshtein_distance_patterns [] [] + ERROR_WEIGHTS.substitution))
    ∧ (([1] : BraillePattern) ≠ [2]
      ∧ pattern_distance [1] [2] ≠ 0
      ∧ levenshtein_distance_patterns [[1]] [[2]] =
          min (min (levenshtein_distance_patterns [] [[2]] + ERROR_WEIGHTS.deletion)
                   (levenshtein_distance_patterns [[1]] [] + ERROR_WEIGHTS.insertion))
              (levenshtein_distance_patterns [] [] + pattern_distance [1] [2])) :=
  ⟨⟨by decide, by with_unfolding_all decide,
    (levenshtein_substitution_fallback [1, 1] [1] [] [] (by decide)).2.1
      (by with_unfolding_all decide)⟩,
   ⟨by decide, by with_unfolding_all decide,
    (levenshtein_substitution_fallback [1] [2] [] [] (by decide)).2.2
      (by with_unfolding_all decide)⟩⟩

/-- Claim C9: with the default weights (missing=1.0, extra=1.0,
deletion=2.0, insertion=2.0, substitution=1.5) `word_distance` is
symmetric, length penalty included. -/
theorem word_distance_comm (w1 w2 : List BraillePattern) :
    word_distance w1 w2 = word_distance w2 w1 := by
  unfold word_distance
  by_cases h : w1.length = w2.length
  · rw [if_pos h, if_pos h.symm, hamming_comm]
  · rw [if_neg h, if_neg (show ¬ (w2.length = w1.length) from fun he => h he.symm)]
    have hd : ((w1.length : ℤ) - (w2.length : ℤ)).natAbs =
        ((w2.length : ℤ) - (w1.length : ℤ)).natAbs := by omega
    simp only [lev_comm w1 w2, hd]

/-- Claim C6: recording a correction for a chosen word that is present in
the lexicon (after the source's lower-case-and-strip normalisation)
increments that word's frequency counter by exactly 1 (a `defaultdict`
read defaulting to 0, plus 1) and the `(inputKey, chosenWord)` occurrence
count by exactly 1; for an absent word the state is left unchanged. -/
theorem add_user_correction_spec (st : DictionaryManager) (k w : String) :
    ((py_strip (py_lower w)) ∈ st.dictionary →
      (add_user_correction st k w).word_frequency (py_strip (py_lower w)) =
        some ((st.word_frequency (py_strip (py_lower w))).getD 0 + 1)
      ∧ (add_user_correction st k w).user_corrections k (py_strip (py_lower w)) =
        st.user_corrections k (py_strip (py_lower w)) + 1)
    ∧ ((py_strip (py_lower w)) ∉ st.dictionary → add_user_correction st k w = st) := by
  constructor
  · intro hmem
    simp only [add_user_correction, if_pos hmem]
    exact ⟨by simp, by simp⟩
  · intro hmem
    simp only [add_user_correction, if_neg hmem]

/-- Witness for C6: in a lexicon holding exactly "hello", correcting to
"hello" bumps its frequency and correction count; correcting to the absent
"world" is a no-op. -/
theorem add_user_correction_spec_witness :
    ((py_strip (py_lower "hello")) ∈ (add_words initDM ["hello"] none).dictionary
      ∧ (add_user_correction (add_words initDM ["hello"] none) "dwo" "hello").word_frequency
          (py_strip (py_lower "hello")) =
        some (((add_words initDM ["hello"] none).word_frequency (py_strip (py_lower "hello"))).getD 0 + 1)
      ∧ (add_user_correction (add_words initDM ["hello"] none) "dwo" "hello").user_corrections
          "dwo" (py_strip (py_lower "hello")) =
        (add_words initDM ["hello"] none).user_corrections "dwo" (py_strip (py_lower "hello")) + 1)
    ∧ ((py_strip (py_lower "world")) ∉ (add_words initDM ["hello"] none).dictionary
      ∧ add_user_correction (add_words initDM ["hello"] none) "dwo" "world" =
          add_words initDM ["hello"] none) :=
  ⟨⟨by decide,
    ((add_user_correction_spec (add_words initDM ["hello"] none) "dwo" "hello").1 (by decide)).1,
    ((add_user_correction_spec (add_words initDM ["hello"] none) "dwo" "hello").1 (by decide)).2⟩,
   ⟨by decide,
    (add_user_correction_spec (add_words initDM ["hello"] none) "dwo" "world").2 (by decide)⟩⟩

lemma add_words_step_inv (fs : Option (List ℤ)) (i : ℕ) (st : DictionaryManager)
    (v : String) (hs : CacheSound st) (hc : CacheCovers st) :
    CacheSound (add_words_step fs i st v) ∧ CacheCovers (add_words_step fs i st v) := by
  unfold add_words_step
  by_cases hacc : py_strip (py_lower v) ≠ "" ∧ is_valid_word (py_strip (py_lower v))
  · rw [if_pos hacc]
    constructor
    · intro x ps hx
      by_cases hxw : x = py_strip (py_lower v)
      · subst hxw
        have hx' : (if py_strip (py_lower v) = py_strip (py_lower v)
            then some (text_to_braille_patterns (py_strip (py_lower v)))
            else st.word_patterns_cache (py_strip (py_lower v))) = some ps := hx
        rw [if_pos rfl] at hx'
        exact (Option.some.inj hx').symm
      · simp only [if_neg hxw] at hx
        exact hs x ps hx
    · intro x hx
      by_cases hxw : x = py_strip (py_lower v)
      · simp [hxw]
      · simp only [if_neg hxw]
        rcases Finset.mem_insert.mp hx with h | h
        · exact absurd h hxw
        · exact hc x h
  · rw [if_neg hacc]; exact ⟨hs, hc⟩

lemma add_words_aux_inv (fs : Option (List ℤ)) (ws : List String) :
    ∀ i st, CacheSound st → CacheCovers st →
      CacheSound (add_words_aux fs i st ws) ∧ CacheCovers (add_words_aux fs i st ws) := by
  induction ws with
  | nil => intro i st hs hc; exact ⟨hs, hc⟩
  | cons v vs ih =>
    intro i st hs hc
    have h := add_words_step_inv fs i st v hs hc
    exact ih (i + 1) (add_words_step fs i st v) h.1 h.2

lemma apply_op_inv (st : DictionaryManager) (op : DMOp)
    (hs : CacheSound st) (hc : CacheCovers st) :
    CacheSound (apply_op st op) ∧ CacheCovers (apply_op st op) := by
  cases op with
  | addW ws fs => exact add_words_aux_inv fs ws 0 st hs hc
  | removeW w =>
    simp only [apply_op, remove_word]
    by_cases hmem : py_strip (py_lower w) ∈ st.dictionary
    · rw [if_pos hmem]
      constructor
      · intro x ps hx
        by_cases hxw : x = py_strip (py_lower w)
        · simp [hxw] at hx
        · simp only [if_neg hxw] at hx
          exact hs x ps hx
      · intro x hx
        have hx' := Finset.mem_erase.mp hx
        simp only [if_neg hx'.1]
        exact hc x hx'.2
    · rw [if_neg hmem]; exact ⟨hs, hc⟩
  | getPat w =>
    simp only [apply_op, get_word_patterns]
    rcases hl : st.word_patterns_cache (py_lower w) with _ | ps
    · simp only
      constructor
      · intro x ps hx
        by_cases hxw : x = py_lower w
        · subst hxw
          have hx' : (if py_lower w = py_lower w
              then some (text_to_braille_patterns (py_lower w))
              else st.word_patterns_cache (py_lower w)) = some ps := hx
          rw [if_pos rfl] at hx'
          exact (Option.some.inj hx').symm
        · simp only [if_neg hxw] at hx
          exact hs x ps hx
      · intro x hx
        by_cases hxw : x = py_lower w
        · simp [hxw]
        · simp only [if_neg hxw]
          exact hc x hx
    · exact ⟨hs, hc⟩
  | addCorr k w =>
    simp only [apply_op, add_user_correction]
    by_cases hmem : py_strip (py_lower w) ∈ st.dictionary
    · rw [if_pos hmem]; exact ⟨hs, hc⟩
    · rw [if_neg hmem]; exact ⟨hs, hc⟩

lemma foldl_ops_inv (ops : List DMOp) :
    ∀ st, CacheSound st → CacheCovers st →
      CacheSound (ops.foldl apply_op st) ∧ CacheCovers (ops.foldl apply_op st) := by
  induction ops with
  | nil => intro st hs hc; exact ⟨hs, hc⟩
  | cons op rest ih =>
    intro st hs hc
    have h := apply_op_inv st op hs hc
    simpa using ih (apply_op st op) h.1 h.2

lemma run_ops_inv (ops : List DMOp) :
    CacheSound (run_ops ops) ∧ CacheCovers (run_ops ops) :=
  foldl_ops_inv ops initDM
    (fun _ _ h => Option.noConfusion h)
    (fun w h => absurd h (Finset.not_mem_empty w))

lemma remove_word_removes (st : DictionaryManager) (w : String)
    (hmem : py_strip (py_lower w) ∈ st.dictionary) :
    (remove_word st w).2.word_patterns_cache (py_strip (py_lower w)) = none
    ∧ (remove_word st w).2.word_frequency (py_strip (py_lower w)) = none := by
  simp only [remove_word, if_pos hmem]
  exact ⟨if_pos trivial, if_pos trivial⟩

/-- Claim C7: after any sequence of `add_words`, `remove_word`,
`get_word_patterns` and `add_user_correction` operations starting from a
fresh manager, every word in the lexicon has a pattern cache entry whose
value equals the deterministic encoding of its characters (never stale);
and a `remove_word` of a word present in the lexicon removes both its
cache entry and its frequency entry. -/
theorem run_ops_cache_invariant (ops : List DMOp) (w : String) :
    (w ∈ (run_ops ops).dictionary →
      (run_ops ops).word_patterns_cache w = some (text_to_braille_patterns w))
    ∧ (py_strip (py_lower w) ∈ (run_ops ops).dictionary →
      (remove_word (run_ops ops) w).2.word_patterns_cache (py_strip (py_lower w)) = none
      ∧ (remove_word (run_ops ops) w).2.word_frequency (py_strip (py_lower w)) = none) := by
  obtain ⟨hs, hc⟩ := run_ops_inv ops
  constructor
  · intro hmem
    have h1 := hc w hmem
    rcases ho : (run_ops ops).word_patterns_cache w with _ | ps
    · rw [ho] at h1; cases h1
    · rw [hs w ps ho]
  · intro hmem
    exact remove_word_removes (run_ops ops) w hmem

/-- Witness for C7: run `add_words(["hello"])`; "hello" is in the lexicon
with its cached encoding, and removing it clears cache and frequency. -/
theorem run_ops_cache_invariant_witness :
    ("hello" ∈ (run_ops [DMOp.addW ["hello"] none]).dictionary
      ∧ (run_ops [DMOp.addW ["hello"] none]).word_patterns_cache "hello" =
          some (text_to_braille_patterns "hello"))
    ∧ (py_strip (py_lower "hello") ∈ (run_ops [DMOp.addW ["hello"] none]).dictionary
      ∧ (remove_word (run_ops [DMOp.addW ["hello"] none]) "hello").2.word_patterns_cache
          (py_strip (py_lower "hello")) = none
      ∧ (remove_word (run_ops [DMOp.addW ["hello"] none]) "hello").2.word_frequency
          (py_strip (py_lower "hello")) = none) :=
  ⟨⟨by decide, (run_ops_cache_invariant [DMOp.addW ["hello"] none] "hello").1 (by decide)⟩,
   ⟨by decide,
    ((run_ops_cache_invariant [DMOp.addW ["hello"] none] "hello").2 (by decide)).1,
    ((run_ops_cache_invariant [DMOp.addW ["hello"] none] "hello").2 (by decide)).2⟩⟩

/-- Claim C8, counterexample: `add_words(["ab"], [-1])` accepts the word
and stores the explicit frequency `-1` verbatim, so a lexicon word ends up
with a negative frequency count, contradicting the claimed non-negativity
invariant. -/
theorem add_words_negative_frequency_cex :
    "ab" ∈ (add_words initDM ["ab"] (some [-1])).dictionary
    ∧ (add_words initDM ["ab"] (some [-1])).word_frequency "ab" = some (-1)
    ∧ (-1 : ℤ) < 0 :=
  ⟨by decide, by decide, by decide⟩

lemma add_words_aux_none_freq (ws : List String) :
    ∀ (i : ℕ) (st : DictionaryManager) (w : String),
      (add_words_aux none i st ws).word_frequency w = st.word_frequency w
      ∨ (add_words_aux none i st ws).word_frequency w =
          some (max 1 ((st.word_frequency w).getD 0)) := by
  induction ws with
  | nil => intro i st w; left; rfl
  | cons v vs ih =>
    intro i st w
    have hstep : (add_words_step none i st v).word_frequency w = st.word_frequency w
        ∨ (add_words_step none i st v).word_frequency w =
            some (max 1 ((st.word_frequency w).getD 0)) := by
      unfold add_words_step
      by_cases hacc : py_strip (py_lower v) ≠ "" ∧ is_valid_word (py_strip (py_lower v))
      · rw [if_pos hacc]
        dsimp only
        by_cases hw : w = py_strip (py_lower v)
        · right
          rw [if_pos hw, hw]
          rfl
        · left
          rw [if_neg hw]
      · rw [if_neg hacc]; left; rfl
    have haux := ih (i + 1) (add_words_step none i st v) w
    show (add_words_aux none (i + 1) (add_words_step none i st v) vs).word_frequency w = _
      ∨ (add_words_aux none (i + 1) (add_words_step none i st v) vs).word_frequency w = _
    rcases hstep with h1 | h1 <;> rcases haux with h2 | h2
    · left; rw [h2, h1]
    · right; rw [h2, h1]
    · right; rw [h2, h1]
    · right
      rw [h2, h1]
      simp only [Option.getD_some]
      rw [← max_assoc, max_self]

lemma add_words_aux_append (fs : Option (List ℤ)) (pre rest : List String) :
    ∀ (i : ℕ) (st : DictionaryManager),
      add_words_aux fs i st (pre ++ rest) =
        add_words_aux fs (i + pre.length) (add_words_aux fs i st pre) rest := by
  induction pre with
  | nil => intro i st; simp [add_words_aux]
  | cons v vs ih =>
    intro i st
    show add_words_aux fs (i + 1) (add_words_step fs i st v) (vs ++ rest) =
      add_words_aux fs (i + (v :: vs).length)
        (add_words_aux fs (i + 1) (add_words_step fs i st v) vs) rest
    rw [ih (i + 1) (add_words_step fs i st v)]
    have hidx : i + 1 + vs.length = i + (v :: vs).length := by
      simp only [List.length_cons]; omega
    rw [hidx]

lemma add_words_aux_freq_untouched (fs : Option (List ℤ)) :
    ∀ (ws : List String) (x : String) (i : ℕ) (st : DictionaryManager),
      (∀ u ∈ ws, py_strip (py_lower u) ≠ x) →
      (add_words_aux fs i st ws).word_frequency x = st.word_frequency x := by
  intro ws
  induction ws with
  | nil => intro x i st _; rfl
  | cons v vs ih =>
    intro x i st hx
    have hstep : (add_words_step fs i st v).word_frequency x = st.word_frequency x := by
      unfold add_words_step
      by_cases hacc : py_strip (py_lower v) ≠ "" ∧ is_valid_word (py_strip (py_lower v))
      · rw [if_pos hacc]
        dsimp only
        rw [if_neg (show ¬ (x = py_strip (py_lower v)) from
          fun h => hx v (List.mem_cons_self v vs) h.symm)]
      · rw [if_neg hacc]
    show (add_words_aux fs (i + 1) (add_words_step fs i st v) vs).word_frequency x =
      st.word_frequency x
    rw [ih x (i + 1) (add_words_step fs i st v) (fun u hu => hx u (List.mem_cons_of_mem v hu)),
      hstep]

lemma add_words_step_freq_accepted (fs : Option (List ℤ)) (i : ℕ)
    (st : DictionaryManager) (w : String)
    (hacc : py_strip (py_lower w) ≠ "" ∧ is_valid_word (py_strip (py_lower w))) :
    (add_words_step fs i st w).word_frequency (py_strip (py_lower w)) =
      some (add_words_freq fs i (st.word_frequency (py_strip (py_lower w)))) := by
  unfold add_words_step
  rw [if_pos hacc]
  dsimp only
  rw [if_pos rfl]

/-- Claim C8, amended: for every `add_words` call, an accepted word's
frequency assignment is the verbatim value `frequencies[i]` of the parallel
list whenever that list is truthy (present and nonempty) and the word's
enumerate index `i` in the call is in range — including negative values, so
lexicon counts are not always non-negative (its position in the call is
`pre ++ w :: post` with `i = pre.length`, and no later element of the call
normalises to the same word, since a later accepted occurrence would
overwrite); when no explicit frequency applies (no list, empty list, or
index out of range) an accepted word's stored count is exactly
`max(1, existing)`, hence at least 1; and an `add_words` call without a
frequencies list never lowers any existing count. -/
theorem add_words_frequency_spec (st : DictionaryManager) (fs : Option (List ℤ))
    (l : List ℤ) (pre post : List String) (w : String) (ws : List String) (x : String) :
    ((py_strip (py_lower w) ≠ "" ∧ is_valid_word (py_strip (py_lower w))) →
      (∀ u ∈ post, py_strip (py_lower u) ≠ py_strip (py_lower w)) →
      l ≠ [] → pre.length < l.length →
      (add_words st (pre ++ w :: post) (some l)).word_frequency (py_strip (py_lower w)) =
        some (l.getD pre.length 0))
    ∧ ((py_strip (py_lower w) ≠ "" ∧ is_valid_word (py_strip (py_lower w))) →
      (∀ u ∈ post, py_strip (py_lower u) ≠ py_strip (py_lower w)) →
      (∀ l' : List ℤ, fs = some l' → l' = [] ∨ l'.length ≤ pre.length) →
      (add_words st (pre ++ w :: post) fs).word_frequency (py_strip (py_lower w)) =
        some (max 1 (((add_words st pre fs).word_frequency (py_strip (py_lower w))).getD 0))
      ∧ 1 ≤ max 1 (((add_words st pre fs).word_frequency (py_strip (py_lower w))).getD 0))
    ∧ ((add_words st ws none).word_frequency x = st.word_frequency x
      ∨ (add_words st ws none).word_frequency x =
          some (max 1 ((st.word_frequency x).getD 0)))
    ∧ (∀ c : ℤ, st.word_frequency x = some c →
      ∃ c', (add_words st ws none).word_frequency x = some c'
        ∧ c ≤ c' ∧ (1 ≤ c → 1 ≤ c')) := by
  refine ⟨fun hacc hpost hl hlen => ?_, fun hacc hpost hfs => ?_,
    add_words_aux_none_freq ws 0 st x, fun c hc => ?_⟩
  · show (add_words_aux (some l) 0 st (pre ++ w :: post)).word_frequency
        (py_strip (py_lower w)) = some (l.getD pre.length 0)
    rw [add_words_aux_append (some l) pre (w :: post) 0 st]
    simp only [Nat.zero_add]
    show (add_words_aux (some l) (pre.length + 1)
        (add_words_step (some l) pre.length (add_words_aux (some l) 0 st pre) w)
        post).word_frequency (py_strip (py_lower w)) = some (l.getD pre.length 0)
    rw [add_words_aux_freq_untouched (some l) post (py_strip (py_lower w)) (pre.length + 1)
        (add_words_step (some l) pre.length (add_words_aux (some l) 0 st pre) w) hpost]
    rw [add_words_step_freq_accepted (some l) pre.length (add_words_aux (some l) 0 st pre) w hacc]
    congr 1
    simp only [add_words_freq]
    rw [if_pos ⟨hl, hlen⟩]
  · have hmain : (add_words_aux fs 0 st (pre ++ w :: post)).word_frequency
        (py_strip (py_lower w)) =
        some (max 1 (((add_words_aux fs 0 st pre).word_frequency
          (py_strip (py_lower w))).getD 0)) := by
      rw [add_words_aux_append fs pre (w :: post) 0 st]
      simp only [Nat.zero_add]
      show (add_words_aux fs (pre.length + 1)
          (add_words_step fs pre.length (add_words_aux fs 0 st pre) w)
          post).word_frequency (py_strip (py_lower w)) = _
      rw [add_words_aux_freq_untouched fs post (py_strip (py_lower w)) (pre.length + 1)
          (add_words_step fs pre.length (add_words_aux fs 0 st pre) w) hpost]
      rw [add_words_step_freq_accepted fs pre.length (add_words_aux fs 0 st pre) w hacc]
      congr 1
      cases fs with
      | none => rfl
      | some l2 =>
        rcases hfs l2 rfl with h | h
        · simp only [add_words_freq]
          rw [if_neg (fun hcon => hcon.1 h)]
        · simp only [add_words_freq]
          rw [if_neg (fun hcon => absurd hcon.2 (not_lt.mpr h))]
    exact ⟨hmain, le_max_left 1 _⟩
  · rcases add_words_aux_none_freq ws 0 st x with h | h
    · refine ⟨c, ?_, le_refl c, fun h1 => h1⟩
      show (add_words_aux none 0 st ws).word_frequency x = some c
      rw [h, hc]
    · refine ⟨max 1 c, ?_, le_max_right 1 c, fun _ => le_max_left 1 c⟩
      show (add_words_aux none 0 st ws).word_frequency x = some (max 1 c)
      rw [h, hc]
      rfl

/-- Witness for C8: the two-word call `add_words(["a", "b"], [3, -7])`
stores −7 verbatim for "b" at enumerate index 1; with the truthy but
too-short list `[3]` the word "b" at index 1 falls back to
`max(1, existing)`; and a repeat add of "ab" without a frequencies list
keeps its explicit count 5 (≥ the old count and ≥ 1). -/
theorem add_words_frequency_spec_witness :
    ((py_strip (py_lower "b") ≠ "" ∧ is_valid_word (py_strip (py_lower "b")))
      ∧ ([3, -7] : List ℤ) ≠ []
      ∧ (["a"] : List String).length < ([3, -7] : List ℤ).length
      ∧ (add_words initDM (["a"] ++ "b" :: []) (some [3, -7])).word_frequency
          (py_strip (py_lower "b")) =
        some (([3, -7] : List ℤ).getD (["a"] : List String).length 0))
    ∧ ((add_words initDM (["a"] ++ "b" :: []) (some [3])).word_frequency
          (py_strip (py_lower "b")) =
        some (max 1 (((add_words initDM ["a"] (some [3])).word_frequency
          (py_strip (py_lower "b"))).getD 0))
      ∧ 1 ≤ max 1 (((add_words initDM ["a"] (some [3])).word_frequency
          (py_strip (py_lower "b"))).getD 0))
    ∧ ((add_words (add_words initDM ["ab"] (some [5])) ["ab"] none).word_frequency "ab" =
          (add_words initDM ["ab"] (some [5])).word_frequency "ab"
        ∨ (add_words (add_words initDM ["ab"] (some [5])) ["ab"] none).word_frequency "ab" =
          some (max 1 (((add_words initDM ["ab"] (some [5])).word_frequency "ab").getD 0)))
    ∧ (∃ c', (add_words (add_words initDM ["ab"] (some [5])) ["ab"] none).word_frequency "ab" =
          some c' ∧ (5 : ℤ) ≤ c' ∧ ((1 : ℤ) ≤ 5 → 1 ≤ c')) :=
  ⟨⟨by decide, by decide, by decide,
    (add_words_frequency_spec initDM (some [3, -7]) [3, -7] ["a"] [] "b" [] "x").1
      (by decide) (by simp) (by decide) (by decide)⟩,
   (add_words_frequency_spec initDM (some [3]) [3, -7] ["a"] [] "b" [] "x").2.1
      (by decide) (by simp)
      (by intro l2 hl2; injection hl2 with h2; subst h2; decide),
   (add_words_frequency_spec (add_words initDM ["ab"] (some [5])) none [] [] [] ""
      ["ab"] "ab").2.2.1,
   (add_words_frequency_spec (add_words initDM ["ab"] (some [5])) none [] [] [] ""
      ["ab"] "ab").2.2.2 5 (by decide)⟩

/-- Claim C10: `get_word_patterns` on a word not in the lexicon leaves an
entry for the case-folded word in the pattern cache while leaving the word
set, every frequency counter and every correction record unchanged; a
second call on the same word returns the cached value and changes nothing. -/
theorem get_word_patterns_probe_spec (st : DictionaryManager) (w : String)
    (hnot : py_lower w ∉ st.dictionary) :
    (get_word_patterns st w).2.word_patterns_cache (py_lower w) =
        some (get_word_patterns st w).1
    ∧ (get_word_patterns st w).2.dictionary = st.dictionary
    ∧ (get_word_patterns st w).2.word_frequency = st.word_frequency
    ∧ (get_word_patterns st w).2.user_corrections = st.user_corrections
    ∧ get_word_patterns (get_word_patterns st w).2 w =
        ((get_word_patterns st w).1, (get_word_patterns st w).2) := by
  rcases hl : st.word_patterns_cache (py_lower w) with _ | ps
  · simp [get_word_patterns, hl]
  · simp [get_word_patterns, hl]

/-- Witness for C10: probing the fresh (empty) manager with the
non-lexicon word "hi" caches its encoding, changes nothing else, and the
second probe is a pure cache hit. -/
theorem get_word_patterns_probe_spec_witness :
    (py_lower "hi" ∉ initDM.dictionary)
    ∧ ((get_word_patterns initDM "hi").2.word_patterns_cache (py_lower "hi") =
        some (get_word_patterns initDM "hi").1
      ∧ (get_word_patterns initDM "hi").2.dictionary = initDM.dictionary
      ∧ (get_word_patterns initDM "hi").2.word_frequency = initDM.word_frequency
      ∧ (get_word_patterns initDM "hi").2.user_corrections = initDM.user_corrections
      ∧ get_word_patterns (get_word_patterns initDM "hi").2 "hi" =
          ((get_word_patterns initDM "hi").1, (get_word_patterns initDM "hi").2)) :=
  ⟨by decide, get_word_patterns_probe_spec initDM "hi" (by decide)⟩

lemma get_word_patterns_fst (st : DictionaryManager) (w : String) :
    (get_word_patterns st w).1 = patterns_value st w := by
  rcases hl : st.word_patterns_cache (py_lower w) with _ | ps <;>
    simp [get_word_patterns, patterns_value, hl]

lemma patterns_value_after_get (st : DictionaryManager) (u w : String) :
    patterns_value (get_word_patterns st u).2 w = patterns_value st w := by
  rcases hl : st.word_patterns_cache (py_lower u) with _ | ps
  · simp only [get_word_patterns, hl, patterns_value]
    by_cases hw : py_lower w = py_lower u
    · rw [hw]
      simp [hl]
    · simp [if_neg hw]
  · simp [get_word_patterns, hl]

lemma map_get_word_patterns_fst (ws : List String) : ∀ st : DictionaryManager,
    (map_get_word_patterns st ws).1 = ws.map (patterns_value st) := by
  induction ws with
  | nil => intro st; rfl
  | cons w ws ih =>
    intro st
    simp only [map_get_word_patterns, List.map]
    rw [get_word_patterns_fst, ih]
    have hpv : patterns_value (get_word_patterns st w).2 = patterns_value st :=
      funext (patterns_value_after_get st w)
    rw [hpv]

lemma filter_zip_map {α β : Type} [DecidableEq β] (f : α → β) (m : β) :
    ∀ l : List α,
      ((l.zip (l.map f)).filter (fun p => decide (p.2 = m))).map Prod.fst
        = l.filter (fun x => decide (f x = m)) := by
  intro l
  induction l with
  | nil => rfl
  | cons a l ih =>
    simp only [List.map_cons, List.zip_cons_cons]
    by_cases h : f a = m <;> simp [List.filter_cons, h, ih]

/-- Claim C1, counterexample: calling `suggest` with an empty lexicon (the
fresh manager, whose set enumeration is the empty candidate list) does not
fail with an `EmptyLexicon` error — no such error exists anywhere in the
code; the `ValueError` raised by `min([])` over the empty distance list
escapes to the caller, exactly the aggregate-minimum exception the claim
says can never escape. -/
theorem suggest_empty_lexicon_cex :
    suggest initDM [] [] = Except.error SuggestFailure.valueErrorEmptyMin := rfl

/-- Claim C1, amended: for every manager whose lexicon is empty (hence the
set enumeration passed as candidates is empty) and every input pattern
sequence, `suggest` surfaces the unhandled `ValueError` raised by
`min` over the empty distance list; the code defines no `EmptyLexicon`
error and performs no emptiness check. -/
theorem suggest_empty_lexicon_value_error (st : DictionaryManager)
    (candidates : List String) (input_patterns : List BraillePattern)
    (hmem : ∀ x, x ∈ candidates ↔ x ∈ st.dictionary)
    (hempty : st.dictionary = ∅) :
    suggest st candidates input_patterns =
      Except.error SuggestFailure.valueErrorEmptyMin := by
  have hc : candidates = [] := by
    cases candidates with
    | nil => rfl
    | cons a l => exact absurd ((hmem a).mp (List.mem_cons_self a l)) (by simp [hempty])
  subst hc
  rfl

/-- Witness for C1: the fresh empty manager with its empty enumeration. -/
theorem suggest_empty_lexicon_value_error_witness :
    (∀ x : String, x ∈ ([] : List String) ↔ x ∈ initDM.dictionary)
    ∧ initDM.dictionary = ∅
    ∧ suggest initDM [] [] = Except.error SuggestFailure.valueErrorEmptyMin :=
  ⟨fun x => by simp [initDM], rfl,
   suggest_empty_lexicon_value_error initDM [] [] (fun x => by simp [initDM]) rfl⟩

/-- Claim C2, amended: for a non-empty lexicon, `suggest` returns the
minimum of the `word_distance` values against every lexicon word's cached
(or lazily computed) pattern sequence, together with exactly the lexicon
words tied at that minimum — but in the order of the supplied set
enumeration (Python set iteration order), not alphabetically: the code
never sorts the suggestions. -/
theorem suggest_min_spec (st : DictionaryManager) (candidates : List String)
    (input_patterns : List BraillePattern)
    (hmem : ∀ x, x ∈ candidates ↔ x ∈ st.dictionary)
    (hne : candidates ≠ []) :
    ∃ m : WithTop ℚ,
      suggest st candidates input_patterns =
        Except.ok (candidates.filter
          (fun x => decide (word_distance input_patterns (patterns_value st x) = m)), m)
      ∧ (∀ x ∈ st.dictionary, m ≤ word_distance input_patterns (patterns_value st x))
      ∧ (∃ x ∈ st.dictionary, word_distance input_patterns (patterns_value st x) = m)
      ∧ (∀ x, x ∈ candidates.filter
            (fun x => decide (word_distance input_patterns (patterns_value st x) = m))
          ↔ x ∈ st.dictionary
            ∧ word_distance input_patterns (patterns_value st x) = m) := by
  have hfst : (map_get_word_patterns st candidates).1 =
      candidates.map (patterns_value st) := map_get_word_patterns_fst candidates st
  have hdist : batch_distances input_patterns (map_get_word_patterns st candidates).1 =
      candidates.map (fun x => word_distance input_patterns (patterns_value st x)) := by
    rw [hfst]
    simp [batch_distances, List.map_map]
  have hne' : candidates.map
      (fun x => word_distance input_patterns (patterns_value st x)) ≠ [] := by
    simpa using hne
  obtain ⟨m, hm⟩ : ∃ m, (candidates.map
      (fun x => word_distance input_patterns (patterns_value st x))).min? = some m := by
    rcases h : (candidates.map
        (fun x => word_distance input_patterns (patterns_value st x))).min? with _ | m
    · rw [List.min?_eq_none_iff] at h
      exact absurd h hne'
    · exact ⟨m, rfl⟩
  have hmem_m : m ∈ candidates.map
      (fun x => word_distance input_patterns (patterns_value st x)) :=
    List.min?_mem (fun a b => min_choice a b) hm
  have hle : ∀ b ∈ candidates.map
      (fun x => word_distance input_patterns (patterns_value st x)), m ≤ b :=
    (List.le_min?_iff (fun _ _ _ => le_min_iff) hm).mp (le_refl m)
  refine ⟨m, ?_, ?_, ?_, ?_⟩
  · unfold suggest
    dsimp only
    rw [hdist, hm]
    dsimp only
    rw [filter_zip_map]
  · intro x hx
    exact hle _ (List.mem_map_of_mem _ ((hmem x).mpr hx))
  · obtain ⟨x, hx, hfx⟩ := List.mem_map.mp hmem_m
    exact ⟨x, (hmem x).mp hx, hfx⟩
  · intro x
    rw [List.mem_filter]
    constructor
    · rintro ⟨h1, h2⟩
      exact ⟨(hmem x).mp h1, of_decide_eq_true h2⟩
    · rintro ⟨h1, h2⟩
      exact ⟨(hmem x).mpr h1, decide_eq_true h2⟩

/-- Witness for C2: the lexicon {"b", "c"} enumerated as ["b", "c"], input
(1,). -/
theorem suggest_min_spec_witness :
    (∀ x, x ∈ ["b", "c"] ↔ x ∈ sample_manager.dictionary)
    ∧ (["b", "c"] : List String) ≠ []
    ∧ ∃ m : WithTop ℚ,
      suggest sample_manager ["b", "c"] [[1]] =
        Except.ok ((["b", "c"]).filter
          (fun x => decide (word_distance [[1]] (patterns_value sample_manager x) = m)), m)
      ∧ (∀ x ∈ sample_manager.dictionary,
          m ≤ word_distance [[1]] (patterns_value sample_manager x))
      ∧ (∃ x ∈ sample_manager.dictionary,
          word_distance [[1]] (patterns_value sample_manager x) = m)
      ∧ (∀ x, x ∈ (["b", "c"]).filter
            (fun x => decide (word_distance [[1]] (patterns_value sample_manager x) = m))
          ↔ x ∈ sample_manager.dictionary
            ∧ word_distance [[1]] (patterns_value sample_manager x) = m) :=
  ⟨fun x => by simp [sample_manager], by decide,
   suggest_min_spec sample_manager ["b", "c"] [[1]]
     (fun x => by simp [sample_manager]) (by decide)⟩

/-- Claim C2, counterexample: the dictionary is a Python set and
`list(dictionary.dictionary)` enumerates it in arbitrary (hash-dependent)
order, which the code never sorts. With the legitimate enumeration
["c", "b"] of the lexicon {"b", "c"} and input (1,), both words are tied
at distance 1 and `suggest` returns them as ["c", "b"] — not the
alphabetical order ["b", "c"] the claim promises. -/
theorem suggest_not_alphabetical_cex :
    (∀ x, x ∈ ["c", "b"] ↔ x ∈ sample_manager.dictionary)
    ∧ suggest sample_manager ["c", "b"] [[1]] =
        Except.ok (["c", "b"], ((1 : ℚ) : WithTop ℚ))
    ∧ (["c", "b"] : List String) ≠ ["b", "c"] := by
  refine ⟨fun x => by simp [sample_manager, or_comm], ?_, by decide⟩
  with_unfolding_all rfl

end BrailleAutocorrect
